import Mathlib

/-!
The translation job controller of `TranslatorApplication.jsx`.

A shallow embedding of the controller part of
`src/components/TranslatorApplication.jsx`: the React state variables and refs
of the component, the endpoint setter `setBaseUrlWithModerator`, the streaming
callbacks `onStreamChunk`, `onStreamEnd` and `onClearLine`, and the
asynchronous function `startTranslation`
together with `stopGeneration`, `handleStartOver` and `handleResume`.

Modelling conventions.

* A React state variable has two faces.  The *live* value is what the setter
  last stored; the value *seen* by a function is the one of the render in which
  that function was created, because the component body binds it with `const`.
  A handler invoked from the latest render sees the live values, but an
  asynchronous function and the callbacks it creates keep the values they saw
  when they were created.  Writes (`setX`) go to the live state, reads go to
  the seen state.  Refs (`useRef`) are always live.
* `startTranslation` is asynchronous.  It runs without interruption up to the
  first `await` of the `for await` loop, then once for every value the engine
  yields, and finally through the code after the loop, the `catch` and the
  `finally`.  What arrives between these pieces is given as a list of
  `RunEvent`s; the end of the list is the end of the engine's sequence.
* JavaScript arrays may have holes, so an array of strings is a list of
  `Option String`; a write past the end pads with holes.
* The subtitle parser, the engine and the cooldown contexts are external.  A
  subtitle text is kept in parsed form, an engine instance is kept as an
  identity with the mode flags it was built with, and the usage and rate
  telemetry is left out.
-/

namespace TranslatorApplication

/-! ## Data model -/

/-- One entry of a parsed subtitle document: `timing` stands for everything the
parser keeps besides the text. -/
structure SubtitleEntry where
  timing : String
  text : String
deriving DecidableEq, Repr

/-- An engine instance, the result of one `new TranslatorImplementation(...)`:
`id` is the identity of the object, `structured` tells which of
`TranslatorStructuredArray` and `Translator` was chosen. -/
structure Translator where
  id : Nat
  structured : Bool
  useModerator : Bool
deriving DecidableEq, Repr

/-- The state variables of the component (`useState`), as far as the controller
reads or writes them.  `srtInputText` and `srtOutputText` are kept parsed. -/
structure State where
  APIvalue : String
  baseUrlValue : Option String
  useModerator : Bool
  useStructuredMode : Bool
  srtInputText : List SubtitleEntry
  srtOutputText : List SubtitleEntry
  inputs : List String
  outputs : List (Option String)
  streamOutput : String
  translatorRunningState : Bool
  resumeIndex : Nat
  errorMessage : String
deriving DecidableEq, Repr

/-- The refs of the component (`useRef`). -/
structure Refs where
  translatorRef : Option Translator
  translatorRunningRef : Bool
deriving DecidableEq, Repr

/-- The controller: live state, refs, and the number of engine instances built
so far (the source of fresh object identities). -/
structure Ctrl where
  state : State
  refs : Refs
  allocated : Nat
deriving DecidableEq, Repr

/-- JavaScript truthiness of a value that is a string or `undefined`. -/
def truthy : Option String → Bool
  | none => false
  | some s => s != ""

/-- Read `xs[i]` for a JavaScript number `i`: `undefined` outside the array. -/
def arrayGet {α : Type} (xs : List α) (i : Int) : Option α :=
  if i < 0 then none else xs[i.toNat]?

/-- The assignment `xs[i] = v` on a JavaScript array.  Inside the array it
replaces the element, past the end it pads with holes, and at a negative `i` it
sets a property that is not an element and leaves the elements alone. -/
def arraySet {α : Type} (xs : List (Option α)) (i : Int) (v : α) : List (Option α) :=
  if i < 0 then xs
  else if i.toNat < xs.length then xs.set i.toNat (some v)
  else xs ++ List.replicate (i.toNat - xs.length) none ++ [some v]

/-! ## Endpoint configuration -/

/-- The function `setBaseUrlWithModerator(value)`, called from a handler of the
latest render, so that the values it sees are the live ones. -/
def setBaseUrlWithModerator (s : State) (value : Option String) : State :=
  let s1 : State :=
    if !truthy s.baseUrlValue && truthy value then
      let s2 : State := if s.useModerator then { s with useModerator := false } else s
      if s.useStructuredMode then { s2 with useStructuredMode := false } else s2
    else s
  { s1 with baseUrlValue := value }

/-- The expression `isDisabled={!APIvalue || translatorRunningState}` on the
Start, Start Over and Resume buttons. -/
def startDisabled (s : State) : Bool :=
  !truthy (some s.APIvalue) || s.translatorRunningState

/-- The branch `translatorRunningState ? <Stop> : <Start ...>` of the button
panel: the start controls are rendered only when this is true. -/
def startRendered (s : State) : Bool :=
  !s.translatorRunningState

/-! ## One run of `startTranslation` -/

/-- The local variables of one invocation of `startTranslation`, with the state
values its closure sees. -/
structure Run where
  startIndex : Nat
  seen : State
  outputWorkingProgress : List SubtitleEntry
  currentOutputs : List (Option String)
  inputsToTranslate : List String
deriving DecidableEq, Repr

/-- Where the invocation stands: waiting for the next value of the loop, past
the loop, in the `catch` with the message of what was thrown, or at its end,
the `finally` done and the promise of the call fulfilled. -/
inductive Status where
  | iterating
  | exited
  | thrown (message : String)
  | returned
deriving DecidableEq, Repr

/-- An invocation of `startTranslation` in progress. -/
structure Job where
  ctrl : Ctrl
  run : Run
  status : Status
deriving DecidableEq, Repr

/-- What can arrive while the loop waits: the engine yields
`{index, finalTransform}`, the engine throws an error whose
`error?.message ?? String(error)` is `message`, or the user presses Stop. -/
inductive RunEvent where
  | result (index : Nat) (finalTransform : String)
  | failure (message : String)
  | stop
deriving DecidableEq, Repr

/-- The message of the `TypeError` that the assignment `srtEntry.text = ...`
raises when `srtEntry` is `undefined`, in the wording of V8 (the runtime puts
the word text in single quotes); other engines word it differently. -/
def typeErrorMessage : String := "Cannot set properties of undefined (setting \x27text\x27)"

/-- The message of the `TypeError` that reading `translatorRef.current.usage`
raises when `translatorRef.current` is `null`, in the wording of V8. -/
def typeErrorUsageMessage : String := "Cannot read properties of null (reading \x27usage\x27)"

/-- The function `stopGeneration()`.  The call `abort()` acts on the engine,
whose later behaviour is given by the events that follow. -/
def stopGeneration (c : Ctrl) : Ctrl :=
  match c.refs.translatorRef with
  | some _ => { c with refs := { c.refs with translatorRunningRef := false } }
  | none => c

/-- The body of `startTranslation(startIndex)` up to the first `await`: lines
103 to 166. -/
def startTranslationSetup (seen : State) (c : Ctrl) (startIndex : Nat) : Job :=
  let engine : Translator :=
    { id := c.allocated, structured := seen.useStructuredMode, useModerator := seen.useModerator }
  { ctrl :=
      { state :=
          { c.state with errorMessage := "", translatorRunningState := true, streamOutput := "" }
        refs := { translatorRef := some engine, translatorRunningRef := true }
        allocated := c.allocated + 1 }
    run :=
      { startIndex := startIndex
        seen := seen
        outputWorkingProgress := seen.srtInputText
        currentOutputs := if startIndex > 0 then seen.outputs.take startIndex else []
        inputsToTranslate := seen.inputs.drop startIndex }
    status := Status.iterating }

/-- One arrival while the loop waits: the loop body of lines 167 to 185 for a
yielded value, the jump to `catch` for a thrown error, `stopGeneration` for a
press of Stop.  Once the loop is left nothing more is consumed. -/
def loopStep (j : Job) (e : RunEvent) : Job :=
  match j.status with
  | Status.iterating =>
    match e with
    | RunEvent.stop => { j with ctrl := stopGeneration j.ctrl }
    | RunEvent.failure message => { j with status := Status.thrown message }
    | RunEvent.result index finalTransform =>
      if !j.ctrl.refs.translatorRunningRef then { j with status := Status.exited }
      else
        let overallIndex : Int := (j.run.startIndex : Int) + ((index : Int) - 1)
        let currentOutputs := arraySet j.run.currentOutputs overallIndex finalTransform
        match arrayGet j.run.outputWorkingProgress overallIndex with
        | none =>
          { j with
            run := { j.run with currentOutputs := currentOutputs }
            status := Status.thrown typeErrorMessage }
        | some srtEntry =>
          let working :=
            j.run.outputWorkingProgress.set overallIndex.toNat { srtEntry with text := finalTransform }
          let run : Run :=
            { j.run with currentOutputs := currentOutputs, outputWorkingProgress := working }
          let published : Ctrl :=
            { j.ctrl with state := { j.ctrl.state with outputs := currentOutputs } }
          match j.ctrl.refs.translatorRef with
          | none =>
            { ctrl := published, run := run, status := Status.thrown typeErrorUsageMessage }
          | some _ =>
            { ctrl := { published with state := { published.state with srtOutputText := working } }
              run := run
              status := Status.iterating }
  | _ => j

/-- The loop of `startTranslation`, fed with what arrives. -/
def startTranslationLoop (j : Job) (events : List RunEvent) : Job :=
  events.foldl loopStep j

/-- The rest of `startTranslation`: lines 187 to 192 after the loop, or the
`catch` of lines 193 to 198, and then the `finally` of lines 199 to 203.  A job
that still waits when the events are over has reached the end of the engine's
sequence and leaves the loop normally.  Nothing is thrown again, so the call
always returns. -/
def startTranslationFinish (j : Job) : Job :=
  let settled : State :=
    match j.status with
    | Status.thrown message =>
      { j.ctrl.state with
        errorMessage := message
        resumeIndex := j.run.currentOutputs.length
        srtOutputText := j.run.outputWorkingProgress }
    | _ =>
      if j.run.currentOutputs.length ≥ j.run.seen.inputs.length then
        { j.ctrl.state with resumeIndex := 0 }
      else
        { j.ctrl.state with resumeIndex := j.run.currentOutputs.length }
  { j with
    ctrl :=
      { j.ctrl with
        state := { settled with translatorRunningState := false }
        refs := { translatorRef := none, translatorRunningRef := false } }
    status := Status.returned }

/-- The job of `startTranslation(startIndex)` at the point where `events` have
arrived, for a closure that sees `seen`. -/
def startTranslationAt (seen : State) (c : Ctrl) (startIndex : Nat) (events : List RunEvent) : Job :=
  startTranslationLoop (startTranslationSetup seen c startIndex) events

/-- A whole invocation of `startTranslation(startIndex)` by a closure that sees
`seen`, with the local variables it ends with. -/
def startTranslationFrom (seen : State) (c : Ctrl) (startIndex : Nat) (events : List RunEvent) : Job :=
  startTranslationFinish (startTranslationAt seen c startIndex events)

/-- The call `startTranslation(startIndex)` made from the latest render. -/
def startTranslation (c : Ctrl) (startIndex : Nat) (events : List RunEvent) : Job :=
  startTranslationFrom c.state c startIndex events

/-- The state after `setOutput([])` and `setResumeIndex(0)` in `handleStartOver`. -/
def clearProgress (c : Ctrl) : Ctrl :=
  { c with state := { c.state with outputs := [], resumeIndex := 0 } }

/-- The function `handleStartOver`: the two setters write the live state, the
call `startTranslation(0)` still sees the values of the render of the click. -/
def handleStartOver (c : Ctrl) (events : List RunEvent) : Job :=
  startTranslationFrom c.state (clearProgress c) 0 events

/-- The function `handleResume`. -/
def handleResume (c : Ctrl) (events : List RunEvent) : Job :=
  startTranslation c c.state.resumeIndex events

/-! ## Streaming callbacks -/

/-- The callback `onStreamChunk(data)` of the engine built by `run`: the test
reads the `streamOutput` the run sees, the update `prev => prev + data` acts on
the live one. -/
def onStreamChunk (run : Run) (c : Ctrl) (data : String) : Ctrl :=
  if run.seen.streamOutput == "" && data == "\n" then c
  else { c with state := { c.state with streamOutput := c.state.streamOutput ++ data } }

/-- The callback `onStreamEnd()`. -/
def onStreamEnd (c : Ctrl) : Ctrl :=
  { c with state := { c.state with streamOutput := "" } }

/-- The characters of a string cut at every newline: the pieces of
`split("\n")`, which are never none, so that the empty string gives one empty
piece. -/
def splitChars : List Char → List (List Char)
  | [] => [[]]
  | ch :: rest =>
    if ch = '\n' then [] :: splitChars rest
    else
      match splitChars rest with
      | [] => [[ch]]
      | piece :: pieces => (ch :: piece) :: pieces

/-- The call `text.split("\n")`. -/
def split (text : String) : List String :=
  (splitChars text.data).map String.mk

/-- The call `lines.join("\n")`. -/
def join : List String → String
  | [] => ""
  | [line] => line
  | line :: lines => line ++ "\n" ++ join lines

/-- The value that `onClearLine` computes from the `streamOutput` it reads:
lines 134 to 140, with `shift()` as `tail` and `pop()` as `dropLast`. -/
def clearedStream (streamOutput : String) : String :=
  let progressLines := split streamOutput
  let progressLines := if progressLines.head? = some "" then progressLines.tail else progressLines
  let progressLines := progressLines.dropLast
  let newStream := join progressLines ++ "\n"
  if newStream = "\n" then "" else newStream

/-- The callback `onClearLine()` of the engine built by `run`: it reads the
`streamOutput` the run sees and stores the value computed from it. -/
def onClearLine (run : Run) (c : Ctrl) : Ctrl :=
  { c with state := { c.state with streamOutput := clearedStream run.seen.streamOutput } }

/-! ## Vocabulary of the claims -/

/-- The source is consistent when the lines are the texts of the parsed
document, as the initial state and the import handler make them. -/
def SourceConsistent (s : State) : Prop :=
  s.inputs = s.srtInputText.map SubtitleEntry.text

/-- The engine yields one result per text, in order, with indices `a + 1`,
`a + 2`, and so on. -/
def resultsFrom (a : Nat) : List String → List RunEvent
  | [] => []
  | t :: ts => RunEvent.result (a + 1) t :: resultsFrom (a + 1) ts

/-- The assignment `srtEntry.text = t` on the entry at `pos`, when there is one. -/
def setText (doc : List SubtitleEntry) (pos : Nat) (t : String) : List SubtitleEntry :=
  match doc[pos]? with
  | some entry => doc.set pos { entry with text := t }
  | none => doc

/-- The document after the texts `ts` were written at `pos`, `pos + 1`, and so on. -/
def reconcileDoc (doc : List SubtitleEntry) (pos : Nat) : List String → List SubtitleEntry
  | [] => doc
  | t :: ts => reconcileDoc (setText doc pos t) (pos + 1) ts

/-- The texts of a document. -/
def texts (doc : List SubtitleEntry) : List String :=
  doc.map SubtitleEntry.text

/-- A five line document and a controller that has just loaded it. -/
def sampleDoc : List SubtitleEntry :=
  [⟨"t1", "a"⟩, ⟨"t2", "b"⟩, ⟨"t3", "c"⟩, ⟨"t4", "d"⟩, ⟨"t5", "e"⟩]

/-- The initial controller over `sampleDoc`, with an API key entered. -/
def sampleCtrl : Ctrl :=
  { state :=
      { APIvalue := "key"
        baseUrlValue := none
        useModerator := true
        useStructuredMode := true
        srtInputText := sampleDoc
        srtOutputText := sampleDoc
        inputs := texts sampleDoc
        outputs := []
        streamOutput := ""
        translatorRunningState := false
        resumeIndex := 0
        errorMessage := "" }
    refs := { translatorRef := none, translatorRunningRef := false }
    allocated := 0 }

/-- What every point of a run from the resume point `k` keeps, when the engine
numbers its results from 1. -/
def ResumeInv (k n : Nat) (prior : List (Option String)) (j : Job) : Prop :=
  j.run.startIndex = k ∧ k ≤ j.run.currentOutputs.length ∧
  j.run.currentOutputs.take k = prior ∧ j.ctrl.state.outputs.take k = prior ∧
  j.run.outputWorkingProgress.length = n ∧ j.ctrl.refs.translatorRef.isSome = true

/-- The controller over `sampleDoc` after a first run from line 0 in which the
lines 1 and 2 were translated to `A` and `B` and the user then pressed Stop:
`outputs` holds `A`, `B`, `resumeIndex` is 2 and the exportable document carries
`A`, `B`, `c`, `d`, `e`. -/
def interruptedCtrl : Ctrl :=
  (startTranslation sampleCtrl 0 (resultsFrom 0 ["A", "B"] ++ [RunEvent.stop])).ctrl

/-- Every text in `outputs` was yielded by the engine in `events`, with the
index of its position. -/
def FromThisRun (events : List RunEvent) (outputs : List (Option String)) : Prop :=
  ∀ i t, outputs[i]? = some (some t) → RunEvent.result (i + 1) t ∈ events

/-- The run yields no result in `events`. -/
def NoResult (events : List RunEvent) : Prop :=
  ∀ r t, RunEvent.result r t ∉ events

/-- The controller over `sampleDoc` while a first run is in progress: the engine
instance 0 is installed and has finalized line 1. -/
def runningCtrl : Ctrl :=
  (startTranslationAt sampleCtrl.state sampleCtrl 0 [RunEvent.result 1 "A"]).ctrl

/-- The controller over `sampleDoc` at a click on Start made while the stream
buffer still shows the text `par` of an earlier, interrupted run. -/
def staleStreamCtrl : Ctrl :=
  { sampleCtrl with state := { sampleCtrl.state with streamOutput := "par" } }

/-- The controller over `sampleDoc` at a click on Start made while the stream
buffer still shows the two lines `old` and `par` of an earlier, interrupted
run. -/
def staleLinesCtrl : Ctrl :=
  { sampleCtrl with state := { sampleCtrl.state with streamOutput := "old\npar" } }

/-- What every point of a run from `k` over a source of `n` lines keeps, when
the engine's indices stay within the lines it was given. -/
def RangeInv (k n : Nat) (j : Job) : Prop :=
  j.run.startIndex = k ∧ j.run.currentOutputs.length ≤ n ∧
  j.run.outputWorkingProgress.length = n ∧ j.run.seen.inputs.length = n ∧
  j.ctrl.refs.translatorRef.isSome = true

/-! ## Arrays and the loop: auxiliary facts -/

open RunEvent
theorem arraySet_ofNat {α : Type} (xs : List (Option α)) (n : Nat) (v : α) :
    arraySet xs (n : Int) v =
      if n < xs.length then xs.set n (some v)
      else xs ++ List.replicate (n - xs.length) none ++ [some v] := by
  simp [arraySet]

theorem arraySet_length_eq {α : Type} (xs : List (Option α)) (n : Nat) (v : α)
    (h : xs.length = n) : arraySet xs (n : Int) v = xs ++ [some v] := by
  simp [arraySet_ofNat, h]

theorem arrayGet_ofNat {α : Type} (xs : List α) (n : Nat) :
    arrayGet xs (n : Int) = xs[n]? := by
  simp [arrayGet]

theorem overallIndex_succ (s a : Nat) : (s : Int) + (((a + 1 : Nat) : Int) - 1) = ((s + a : Nat) : Int) := by
  push_cast; ring

theorem loopStep_of_not_iterating (j : Job) (e : RunEvent) (h : j.status ≠ Status.iterating) :
    loopStep j e = j := by
  unfold loopStep
  cases hs : j.status with
  | iterating => exact absurd hs h
  | exited => rfl
  | thrown m => rfl
  | returned => rfl

theorem loop_of_not_iterating (j : Job) (events : List RunEvent) (h : j.status ≠ Status.iterating) :
    startTranslationLoop j events = j := by
  induction events with
  | nil => rfl
  | cons e es ih =>
    simp only [startTranslationLoop, List.foldl_cons] at ih ⊢
    rw [loopStep_of_not_iterating j e h]
    exact ih

theorem loop_append (j : Job) (es fs : List RunEvent) :
    startTranslationLoop j (es ++ fs) = startTranslationLoop (startTranslationLoop j es) fs := by
  simp [startTranslationLoop, List.foldl_append]

theorem loop_cons (j : Job) (e : RunEvent) (es : List RunEvent) :
    startTranslationLoop j (e :: es) = startTranslationLoop (loopStep j e) es := rfl

theorem loopStep_result_ok (j : Job) (a : Nat) (t : String) (eng : Translator) (entry : SubtitleEntry)
    (hst : j.status = Status.iterating)
    (hflag : j.ctrl.refs.translatorRunningRef = true)
    (href : j.ctrl.refs.translatorRef = some eng)
    (hdoc : j.run.outputWorkingProgress[j.run.startIndex + a]? = some entry) :
    loopStep j (result (a + 1) t) =
      { ctrl :=
          { j.ctrl with
            state :=
              { j.ctrl.state with
                outputs := arraySet j.run.currentOutputs ((j.run.startIndex + a : Nat) : Int) t
                srtOutputText :=
                  j.run.outputWorkingProgress.set (j.run.startIndex + a) { entry with text := t } } }
        run :=
          { j.run with
            currentOutputs := arraySet j.run.currentOutputs ((j.run.startIndex + a : Nat) : Int) t
            outputWorkingProgress :=
              j.run.outputWorkingProgress.set (j.run.startIndex + a) { entry with text := t } }
        status := Status.iterating } := by
  unfold loopStep
  simp only [hst, hflag, overallIndex_succ, arrayGet_ofNat, hdoc, href, Int.toNat_ofNat]
  rfl

theorem take_succ_set {α : Type} (l : List α) (p : Nat) (v : α) (h : p < l.length) :
    (l.set p v).take (p + 1) = l.take p ++ [v] := by
  rw [List.take_succ, List.set_take, List.set_eq_of_length_le (by simp)]
  simp [List.getElem?_set, h]

theorem setText_length (doc : List SubtitleEntry) (pos : Nat) (t : String) :
    (setText doc pos t).length = doc.length := by
  unfold setText
  split <;> simp

theorem texts_setText (doc : List SubtitleEntry) (pos : Nat) (t : String) :
    texts (setText doc pos t) = (texts doc).set pos t := by
  unfold setText
  split
  · simp [texts]
  · next h =>
    rw [List.set_eq_of_length_le]
    simpa [texts] using h

theorem reconcileDoc_length (ts : List String) :
    ∀ (doc : List SubtitleEntry) (pos : Nat), (reconcileDoc doc pos ts).length = doc.length := by
  induction ts with
  | nil => intro doc pos; rfl
  | cons t ts ih => intro doc pos; rw [reconcileDoc, ih, setText_length]

theorem texts_reconcileDoc (ts : List String) :
    ∀ (doc : List SubtitleEntry) (pos : Nat), pos + ts.length ≤ doc.length →
      texts (reconcileDoc doc pos ts) =
        (texts doc).take pos ++ ts ++ (texts doc).drop (pos + ts.length) := by
  induction ts with
  | nil => intro doc pos _; simp [reconcileDoc]
  | cons t ts ih =>
    intro doc pos h
    simp only [List.length_cons] at h
    have hp : pos < (texts doc).length := by simp [texts]; omega
    rw [reconcileDoc, ih _ _ (by rw [setText_length]; omega), texts_setText,
      take_succ_set _ _ _ hp, List.drop_set_of_lt _ _ (by omega)]
    simp only [List.length_cons, List.append_assoc, List.singleton_append]
    congr 3
    omega

theorem loop_resultsFrom (ts : List String) :
    ∀ (j : Job) (a : Nat) (eng : Translator),
      j.status = Status.iterating →
      j.ctrl.refs.translatorRunningRef = true →
      j.ctrl.refs.translatorRef = some eng →
      j.run.currentOutputs.length = j.run.startIndex + a →
      j.run.startIndex + a + ts.length ≤ j.run.outputWorkingProgress.length →
      startTranslationLoop j (resultsFrom a ts) =
        { ctrl :=
            { j.ctrl with
              state :=
                { j.ctrl.state with
                  outputs :=
                    if ts = [] then j.ctrl.state.outputs
                    else j.run.currentOutputs ++ ts.map some
                  srtOutputText :=
                    if ts = [] then j.ctrl.state.srtOutputText
                    else reconcileDoc j.run.outputWorkingProgress (j.run.startIndex + a) ts } }
          run :=
            { j.run with
              currentOutputs := j.run.currentOutputs ++ ts.map some
              outputWorkingProgress :=
                reconcileDoc j.run.outputWorkingProgress (j.run.startIndex + a) ts }
          status := Status.iterating } := by
  induction ts with
  | nil =>
    intro j a eng hst _ _ _ _
    cases j with
    | mk ctrl run status =>
      simp only at hst
      subst hst
      simp [startTranslationLoop, resultsFrom, reconcileDoc]
  | cons t ts ih =>
    intro j a eng hst hflag href hlen hdoc
    simp only [List.length_cons] at hdoc
    have hp : j.run.startIndex + a < j.run.outputWorkingProgress.length := by omega
    have hentry : j.run.outputWorkingProgress[j.run.startIndex + a]? =
        some (j.run.outputWorkingProgress[j.run.startIndex + a]) := List.getElem?_eq_getElem hp
    have hstep := loopStep_result_ok j a t eng _ hst hflag href hentry
    rw [arraySet_length_eq _ _ _ hlen] at hstep
    have hset : j.run.outputWorkingProgress.set (j.run.startIndex + a)
        { j.run.outputWorkingProgress[j.run.startIndex + a] with text := t } =
        setText j.run.outputWorkingProgress (j.run.startIndex + a) t := by
      simp [setText, hentry]
    rw [hset] at hstep
    have hloop := ih (loopStep j (result (a + 1) t)) (a + 1) eng
      (by rw [hstep]) (by rw [hstep]; exact hflag) (by rw [hstep]; exact href)
      (by rw [hstep]; simp [hlen]; omega)
      (by rw [hstep]; simp [setText_length]; omega)
    rw [resultsFrom, loop_cons, hloop, hstep]
    by_cases hts : ts = []
    · simp [hts, reconcileDoc]
    · simp [hts, reconcileDoc, Nat.add_assoc]

/-! ## The claims -/

theorem seed_eq_take (outputs : List (Option String)) (k : Nat) :
    (if k > 0 then outputs.take k else []) = outputs.take k := by
  cases k <;> simp

/-- The job after the engine has yielded the results `1, 2, ...` with the texts
`ts`, all of them lines of the document, on a valid resume point. -/
theorem at_resultsFrom (seen : State) (c : Ctrl) (k : Nat) (ts : List String)
    (hprior : k ≤ seen.outputs.length)
    (hdoc : k + ts.length ≤ seen.srtInputText.length) :
    startTranslationAt seen c k (resultsFrom 0 ts) =
      { ctrl :=
          { (startTranslationSetup seen c k).ctrl with
            state :=
              { (startTranslationSetup seen c k).ctrl.state with
                outputs :=
                  if ts = [] then c.state.outputs else seen.outputs.take k ++ ts.map some
                srtOutputText :=
                  if ts = [] then c.state.srtOutputText
                  else reconcileDoc seen.srtInputText k ts } }
        run :=
          { (startTranslationSetup seen c k).run with
            currentOutputs := seen.outputs.take k ++ ts.map some
            outputWorkingProgress := reconcileDoc seen.srtInputText k ts }
        status := Status.iterating } := by
  have h := loop_resultsFrom ts (startTranslationSetup seen c k) 0
    { id := c.allocated, structured := seen.useStructuredMode, useModerator := seen.useModerator }
    rfl rfl rfl
    (by simp [startTranslationSetup, seed_eq_take, hprior])
    (by simpa [startTranslationSetup] using hdoc)
  rw [startTranslationAt, h]
  simp [startTranslationSetup, seed_eq_take]

/-- C1. For a source of `n` lines, a resume point `fromIndex ≤ n` and prior
outputs with at least `fromIndex` entries: when the engine yields one result
for each of the `n - fromIndex` remaining lines, with the indices
`1 .. n - fromIndex` in order, and neither a stop nor an error occurs, then
`startTranslation(fromIndex)` ends with `resumeIndex = 0` and with an outputs
sequence (`currentOutputs`) of exactly `n` entries: the first `fromIndex` prior
outputs followed by the new texts.  The published `outputs` state is that
sequence as soon as one line was reconciled, and is left as it was when none
remained. -/
theorem startTranslation_completes (c : Ctrl) (fromIndex : Nat) (ts : List String)
    (hsrc : SourceConsistent c.state)
    (hfrom : fromIndex ≤ c.state.inputs.length)
    (hprior : fromIndex ≤ c.state.outputs.length)
    (hts : ts.length = c.state.inputs.length - fromIndex) :
    (startTranslation c fromIndex (resultsFrom 0 ts)).ctrl.state.resumeIndex = 0 ∧
    (startTranslation c fromIndex (resultsFrom 0 ts)).run.currentOutputs.length =
      c.state.inputs.length ∧
    (startTranslation c fromIndex (resultsFrom 0 ts)).run.currentOutputs =
      c.state.outputs.take fromIndex ++ ts.map some ∧
    (startTranslation c fromIndex (resultsFrom 0 ts)).ctrl.state.outputs =
      if fromIndex = c.state.inputs.length then c.state.outputs
      else c.state.outputs.take fromIndex ++ ts.map some := by
  have hn : c.state.srtInputText.length = c.state.inputs.length := by
    rw [hsrc]; simp
  have hat := at_resultsFrom c.state c fromIndex ts hprior (by omega)
  have hlen : (c.state.outputs.take fromIndex ++ ts.map some).length = c.state.inputs.length := by
    simp [hts, Nat.min_eq_left hprior]; omega
  have hnil : ts = [] ↔ fromIndex = c.state.inputs.length := by
    rw [← List.length_eq_zero]; omega
  simp only [startTranslation, startTranslationFrom, hat, startTranslationFinish]
  simp only [hlen, startTranslationSetup, hnil]
  simp

/-- C1 at the five line document, started from line 0. -/
theorem startTranslation_completes_witness :
    (startTranslation sampleCtrl 0 (resultsFrom 0 ["A", "B", "C", "D", "E"])).ctrl.state.resumeIndex = 0 ∧
    (startTranslation sampleCtrl 0 (resultsFrom 0 ["A", "B", "C", "D", "E"])).run.currentOutputs.length =
      sampleCtrl.state.inputs.length ∧
    (startTranslation sampleCtrl 0 (resultsFrom 0 ["A", "B", "C", "D", "E"])).run.currentOutputs =
      sampleCtrl.state.outputs.take 0 ++ ["A", "B", "C", "D", "E"].map some ∧
    (startTranslation sampleCtrl 0 (resultsFrom 0 ["A", "B", "C", "D", "E"])).ctrl.state.outputs =
      if 0 = sampleCtrl.state.inputs.length then sampleCtrl.state.outputs
      else sampleCtrl.state.outputs.take 0 ++ ["A", "B", "C", "D", "E"].map some :=
  startTranslation_completes sampleCtrl 0 ["A", "B", "C", "D", "E"] rfl (by decide) (by decide)
    (by decide)

theorem loopStep_failure (j : Job) (message : String) (h : j.status = Status.iterating) :
    loopStep j (failure message) = { j with status := Status.thrown message } := by
  simp [loopStep, h]

/-- C2, as amended.  On a valid resume point, one for which the prior outputs
hold at least `fromIndex` entries, when the engine finalizes the `k` lines with
the texts `ts` of the suffix, in order, and then throws an error with the
message `message`, the call `startTranslation(fromIndex)` returns: the error is
caught, `errorMessage` is its message, `resumeIndex` is `fromIndex + k`, the
length of the outputs sequence, and the outputs sequence holds exactly the
first `fromIndex` prior outputs and the `k` new texts.  The published `outputs`
state is that sequence as soon as one line was reconciled. -/
theorem startTranslation_failure (c : Ctrl) (fromIndex : Nat) (ts : List String)
    (message : String) (rest : List RunEvent)
    (hsrc : SourceConsistent c.state)
    (hprior : fromIndex ≤ c.state.outputs.length)
    (hk : fromIndex + ts.length ≤ c.state.inputs.length) :
    (startTranslation c fromIndex (resultsFrom 0 ts ++ failure message :: rest)).status =
      Status.returned ∧
    (startTranslation c fromIndex (resultsFrom 0 ts ++ failure message :: rest)).ctrl.state.errorMessage =
      message ∧
    (startTranslation c fromIndex (resultsFrom 0 ts ++ failure message :: rest)).ctrl.state.resumeIndex =
      fromIndex + ts.length ∧
    (startTranslation c fromIndex (resultsFrom 0 ts ++ failure message :: rest)).run.currentOutputs =
      c.state.outputs.take fromIndex ++ ts.map some ∧
    (startTranslation c fromIndex (resultsFrom 0 ts ++ failure message :: rest)).run.currentOutputs.length =
      fromIndex + ts.length ∧
    (startTranslation c fromIndex (resultsFrom 0 ts ++ failure message :: rest)).ctrl.state.outputs =
      if ts = [] then c.state.outputs else c.state.outputs.take fromIndex ++ ts.map some := by
  have hn : c.state.srtInputText.length = c.state.inputs.length := by
    rw [hsrc]; simp
  have hat := at_resultsFrom c.state c fromIndex ts hprior (by omega)
  have hlen : (c.state.outputs.take fromIndex ++ ts.map some).length = fromIndex + ts.length := by
    simp [Nat.min_eq_left hprior]
  simp only [startTranslation, startTranslationFrom, startTranslationAt] at hat ⊢
  rw [loop_append, hat, loop_cons, loopStep_failure _ _ rfl,
    loop_of_not_iterating _ _ (by simp)]
  simp [startTranslationFinish, hlen, startTranslationSetup]

/-- C2, as amended, at the scenario of the specification: five lines, started
from line 0, lines 1 to 3 finalized, an error thrown on line 4. -/
theorem startTranslation_failure_witness :
    (startTranslation sampleCtrl 0 (resultsFrom 0 ["A", "B", "C"] ++ failure "boom" :: [])).status =
      Status.returned ∧
    (startTranslation sampleCtrl 0
      (resultsFrom 0 ["A", "B", "C"] ++ failure "boom" :: [])).ctrl.state.errorMessage = "boom" ∧
    (startTranslation sampleCtrl 0
      (resultsFrom 0 ["A", "B", "C"] ++ failure "boom" :: [])).ctrl.state.resumeIndex = 0 + 3 ∧
    (startTranslation sampleCtrl 0
      (resultsFrom 0 ["A", "B", "C"] ++ failure "boom" :: [])).run.currentOutputs =
      [some "A", some "B", some "C"] ∧
    (startTranslation sampleCtrl 0
      (resultsFrom 0 ["A", "B", "C"] ++ failure "boom" :: [])).run.currentOutputs.length = 0 + 3 ∧
    (startTranslation sampleCtrl 0
      (resultsFrom 0 ["A", "B", "C"] ++ failure "boom" :: [])).ctrl.state.outputs =
      [some "A", some "B", some "C"] :=
  startTranslation_failure sampleCtrl 0 ["A", "B", "C"] "boom" [] rfl (by decide) (by decide)

/-- C2 as stated fails when the prior outputs hold fewer than `fromIndex`
entries and the engine throws before it finalizes a line (`k = 0`): on the five
line document with no prior outputs, `startTranslation(3)` seeds the outputs
sequence with `outputs.slice(0, 3)`, which is empty, the error is caught and
recorded, and `resumeIndex` is set to the length `0` of the outputs sequence,
not to `fromIndex + k = 3`. -/
theorem startTranslation_failure_counterexample :
    sampleCtrl.state.outputs = [] ∧
    (startTranslation sampleCtrl 3 (resultsFrom 0 [] ++ failure "boom" :: [])).status =
      Status.returned ∧
    (startTranslation sampleCtrl 3
      (resultsFrom 0 [] ++ failure "boom" :: [])).ctrl.state.errorMessage = "boom" ∧
    (startTranslation sampleCtrl 3
      (resultsFrom 0 [] ++ failure "boom" :: [])).run.currentOutputs = [] ∧
    (startTranslation sampleCtrl 3
      (resultsFrom 0 [] ++ failure "boom" :: [])).ctrl.state.resumeIndex = 0 ∧
    ¬ (startTranslation sampleCtrl 3
      (resultsFrom 0 [] ++ failure "boom" :: [])).ctrl.state.resumeIndex = 3 + 0 := by
  decide

theorem loopStep_stop (j : Job) (h : j.status = Status.iterating) :
    loopStep j stop = { j with ctrl := stopGeneration j.ctrl } := by
  simp [loopStep, h]

/-- Once the flag is cleared and as long as the engine does not throw, the loop
reconciles nothing more and ends without an error. -/
theorem loop_stopped (rest : List RunEvent) :
    ∀ j : Job, j.status = Status.iterating → j.ctrl.refs.translatorRunningRef = false →
      (∀ m, failure m ∉ rest) →
      (startTranslationLoop j rest).run = j.run ∧
      (startTranslationLoop j rest).ctrl.state = j.ctrl.state ∧
      (startTranslationLoop j rest).ctrl.allocated = j.ctrl.allocated ∧
      ((startTranslationLoop j rest).status = Status.iterating ∨
        (startTranslationLoop j rest).status = Status.exited) := by
  induction rest with
  | nil => intro j hst _ _; exact ⟨rfl, rfl, rfl, Or.inl hst⟩
  | cons e es ih =>
    intro j hst hflag hrest
    have hes : ∀ m, failure m ∉ es := fun m hm => hrest m (List.mem_cons_of_mem _ hm)
    rw [loop_cons]
    cases e with
    | failure m => exact absurd (List.mem_cons_self _ _) (hrest m)
    | stop =>
      rw [loopStep_stop j hst]
      have hflag2 : (stopGeneration j.ctrl).refs.translatorRunningRef = false := by
        unfold stopGeneration; split <;> simp [hflag]
      have hstate : (stopGeneration j.ctrl).state = j.ctrl.state := by
        unfold stopGeneration; split <;> rfl
      have halloc : (stopGeneration j.ctrl).allocated = j.ctrl.allocated := by
        unfold stopGeneration; split <;> rfl
      obtain ⟨h1, h2, h3, h4⟩ := ih { j with ctrl := stopGeneration j.ctrl } hst hflag2 hes
      exact ⟨h1, h2.trans hstate, h3.trans halloc, h4⟩
    | result index t =>
      have hstep : loopStep j (result index t) = { j with status := Status.exited } := by
        simp [loopStep, hst, hflag]
      rw [hstep, loop_of_not_iterating _ _ (by simp)]
      exact ⟨rfl, rfl, rfl, Or.inr rfl⟩

theorem finish_of_loop_left (j : Job)
    (h : j.status = Status.iterating ∨ j.status = Status.exited) :
    startTranslationFinish j =
      { j with
        ctrl :=
          { j.ctrl with
            state :=
              { j.ctrl.state with
                resumeIndex :=
                  if j.run.currentOutputs.length ≥ j.run.seen.inputs.length then 0
                  else j.run.currentOutputs.length
                translatorRunningState := false }
            refs := { translatorRef := none, translatorRunningRef := false } }
        status := Status.returned } := by
  unfold startTranslationFinish
  rcases h with h | h <;> simp only [h] <;> split <;> rfl

/-- A run in which Stop is pressed and the engine afterwards does not throw:
nothing more is reconciled and the code after the loop settles the progress. -/
theorem finish_stop (j : Job) (rest : List RunEvent) (eng : Translator)
    (hst : j.status = Status.iterating)
    (href : j.ctrl.refs.translatorRef = some eng)
    (hrest : ∀ m, failure m ∉ rest) :
    startTranslationFinish (startTranslationLoop j (stop :: rest)) =
      { ctrl :=
          { j.ctrl with
            state :=
              { j.ctrl.state with
                resumeIndex :=
                  if j.run.currentOutputs.length ≥ j.run.seen.inputs.length then 0
                  else j.run.currentOutputs.length
                translatorRunningState := false }
            refs := { translatorRef := none, translatorRunningRef := false } }
        run := j.run
        status := Status.returned } := by
  have hflag : (stopGeneration j.ctrl).refs.translatorRunningRef = false := by
    simp [stopGeneration, href]
  have hstate : (stopGeneration j.ctrl).state = j.ctrl.state := by
    simp [stopGeneration, href]
  have halloc : (stopGeneration j.ctrl).allocated = j.ctrl.allocated := by
    simp [stopGeneration, href]
  obtain ⟨h1, h2, h3, h4⟩ :=
    loop_stopped rest { j with ctrl := stopGeneration j.ctrl } hst hflag hrest
  rw [loop_cons, loopStep_stop j hst, finish_of_loop_left _ h4]
  simp only [h1, h2, h3, hstate, halloc]

/-- C3, as amended.  On a valid resume point, when Stop is pressed after the `k`
lines with the texts `ts` were finalized and the engine afterwards does not
throw, whatever the engine yields next is not reconciled, the call returns with
`errorMessage` empty, and `resumeIndex` is `fromIndex + k` when lines remain
(`fromIndex + k < n`) and `0` when every line was already reconciled. -/
theorem startTranslation_stop (c : Ctrl) (fromIndex : Nat) (ts : List String)
    (rest : List RunEvent)
    (hsrc : SourceConsistent c.state)
    (hprior : fromIndex ≤ c.state.outputs.length)
    (hk : fromIndex + ts.length ≤ c.state.inputs.length)
    (hrest : ∀ m, failure m ∉ rest) :
    (startTranslation c fromIndex (resultsFrom 0 ts ++ stop :: rest)).status = Status.returned ∧
    (startTranslation c fromIndex (resultsFrom 0 ts ++ stop :: rest)).run.currentOutputs =
      c.state.outputs.take fromIndex ++ ts.map some ∧
    (startTranslation c fromIndex (resultsFrom 0 ts ++ stop :: rest)).ctrl.state.outputs =
      (if ts = [] then c.state.outputs else c.state.outputs.take fromIndex ++ ts.map some) ∧
    (startTranslation c fromIndex (resultsFrom 0 ts ++ stop :: rest)).ctrl.state.errorMessage = "" ∧
    (startTranslation c fromIndex (resultsFrom 0 ts ++ stop :: rest)).ctrl.state.resumeIndex =
      if fromIndex + ts.length = c.state.inputs.length then 0 else fromIndex + ts.length := by
  have hn : c.state.srtInputText.length = c.state.inputs.length := by
    rw [hsrc]; simp
  have hat := at_resultsFrom c.state c fromIndex ts hprior (by omega)
  have hlen : (c.state.outputs.take fromIndex ++ ts.map some).length = fromIndex + ts.length := by
    simp [Nat.min_eq_left hprior]
  simp only [startTranslation, startTranslationFrom, startTranslationAt] at hat ⊢
  rw [loop_append, hat, finish_stop _ rest _ rfl rfl hrest]
  have hge : (fromIndex + ts.length ≥ c.state.inputs.length) ↔
      fromIndex + ts.length = c.state.inputs.length := by omega
  simp [startTranslationSetup, hlen, hge]

/-- C3, as amended, at the scenario of the specification: Stop is pressed after
line 2 of 5, and the third result that the engine still yields is dropped. -/
theorem startTranslation_stop_witness :
    (startTranslation sampleCtrl 0
      (resultsFrom 0 ["A", "B"] ++ stop :: [result 3 "C"])).status = Status.returned ∧
    (startTranslation sampleCtrl 0
      (resultsFrom 0 ["A", "B"] ++ stop :: [result 3 "C"])).run.currentOutputs =
      [some "A", some "B"] ∧
    (startTranslation sampleCtrl 0
      (resultsFrom 0 ["A", "B"] ++ stop :: [result 3 "C"])).ctrl.state.outputs =
      [some "A", some "B"] ∧
    (startTranslation sampleCtrl 0
      (resultsFrom 0 ["A", "B"] ++ stop :: [result 3 "C"])).ctrl.state.errorMessage = "" ∧
    (startTranslation sampleCtrl 0
      (resultsFrom 0 ["A", "B"] ++ stop :: [result 3 "C"])).ctrl.state.resumeIndex = 2 :=
  startTranslation_stop sampleCtrl 0 ["A", "B"] [result 3 "C"] rfl (by decide) (by decide)
    (by simp)

/-- C3 as stated fails when Stop is pressed after the last line was finalized
and before the engine's sequence ends: all five lines of the document are
reconciled, the run ends without an error, and `resumeIndex` is `0`, not
`fromIndex + k = 5`. -/
theorem startTranslation_stop_counterexample :
    (startTranslation sampleCtrl 0
      (resultsFrom 0 ["A", "B", "C", "D", "E"] ++ [stop])).run.currentOutputs =
      [some "A", some "B", some "C", some "D", some "E"] ∧
    (startTranslation sampleCtrl 0
      (resultsFrom 0 ["A", "B", "C", "D", "E"] ++ [stop])).ctrl.state.errorMessage = "" ∧
    (startTranslation sampleCtrl 0
      (resultsFrom 0 ["A", "B", "C", "D", "E"] ++ [stop])).ctrl.state.resumeIndex = 0 ∧
    ¬ (startTranslation sampleCtrl 0
      (resultsFrom 0 ["A", "B", "C", "D", "E"] ++ [stop])).ctrl.state.resumeIndex = 0 + 5 := by
  decide

theorem arraySet_take {α : Type} (xs : List (Option α)) (k i : Nat) (v : α)
    (hk : k ≤ xs.length) (hi : k ≤ i) : (arraySet xs (i : Int) v).take k = xs.take k := by
  rw [arraySet_ofNat]
  split
  · by_cases h : k = i
    · subst h
      rw [List.set_take, List.set_eq_of_length_le (by simp)]
    · exact List.take_set_of_lt _ _ (by omega)
  · rw [List.append_assoc, List.take_append_of_le_length hk]

theorem arraySet_length_le {α : Type} (xs : List (Option α)) (i : Int) (v : α) :
    xs.length ≤ (arraySet xs i v).length := by
  unfold arraySet
  split
  · exact le_rfl
  · split <;> simp

theorem arraySet_getElem {α : Type} (xs : List (Option α)) (i : Nat) (v : α) :
    (arraySet xs (i : Int) v)[i]? = some (some v) := by
  rw [arraySet_ofNat]
  split
  · next h => simp [List.getElem?_set, h]
  · next h =>
    have hlen : (xs ++ List.replicate (i - xs.length) none).length = i := by
      simp; omega
    rw [List.getElem?_append_right (by omega)]
    simp [hlen]

theorem overallIndex_pos (k r : Nat) (hr : 1 ≤ r) :
    (k : Int) + ((r : Int) - 1) = ((k + (r - 1) : Nat) : Int) := by
  omega

theorem resumeInv_setup (c : Ctrl) (k : Nat) (hprior : k ≤ c.state.outputs.length) :
    ResumeInv k c.state.srtInputText.length (c.state.outputs.take k)
      (startTranslationSetup c.state c k) := by
  simp [ResumeInv, startTranslationSetup, seed_eq_take, hprior]

theorem resumeInv_step (k n : Nat) (prior : List (Option String)) (j : Job) (e : RunEvent)
    (hinv : ResumeInv k n prior j) (he : ∀ r t, e = result r t → 1 ≤ r) :
    ResumeInv k n prior (loopStep j e) := by
  obtain ⟨hs, hlen, hcur, hpub, hdoc, href⟩ := hinv
  by_cases hst : j.status = Status.iterating
  swap
  · rw [loopStep_of_not_iterating j e hst]; exact ⟨hs, hlen, hcur, hpub, hdoc, href⟩
  cases e with
  | stop =>
    rw [loopStep_stop j hst]
    refine ⟨hs, hlen, hcur, ?_, hdoc, ?_⟩
    · unfold stopGeneration; split <;> exact hpub
    · unfold stopGeneration; split <;> simpa using href
  | failure m =>
    rw [loopStep_failure j m hst]; exact ⟨hs, hlen, hcur, hpub, hdoc, href⟩
  | result r t =>
    have hr := he r t rfl
    have htake : (arraySet j.run.currentOutputs ((k + (r - 1) : Nat) : Int) t).take k = prior := by
      rw [arraySet_take _ _ _ _ hlen (by omega), hcur]
    have hle := arraySet_length_le j.run.currentOutputs ((k + (r - 1) : Nat) : Int) t
    unfold loopStep
    simp only [hst, hs, overallIndex_pos k r hr, arrayGet_ofNat, Int.toNat_ofNat]
    split
    · exact ⟨hs, hlen, hcur, hpub, hdoc, href⟩
    · split
      · exact ⟨rfl, by simpa using le_trans hlen hle, htake, hpub, hdoc, href⟩
      · split
        · exact ⟨rfl, by simpa using le_trans hlen hle, htake, htake, by simpa using hdoc, href⟩
        · exact ⟨rfl, by simpa using le_trans hlen hle, htake, htake, by simpa using hdoc, href⟩

theorem resumeInv_loop (k n : Nat) (prior : List (Option String)) (events : List RunEvent) :
    ∀ j : Job, ResumeInv k n prior j → (∀ r t, result r t ∈ events → 1 ≤ r) →
      ResumeInv k n prior (startTranslationLoop j events) := by
  induction events with
  | nil => intro j h _; exact h
  | cons e es ih =>
    intro j h hidx
    rw [loop_cons]
    refine ih _ (resumeInv_step k n prior j e h ?_) ?_
    · intro r t he; exact hidx r t (he ▸ List.mem_cons_self _ _)
    · intro r t hm; exact hidx r t (List.mem_cons_of_mem _ hm)

theorem finish_outputs (j : Job) :
    (startTranslationFinish j).ctrl.state.outputs = j.ctrl.state.outputs ∧
    (startTranslationFinish j).run = j.run := by
  unfold startTranslationFinish
  refine ⟨?_, rfl⟩
  cases j.status <;> simp <;> split <;> rfl
theorem loopStep_inputsToTranslate (j : Job) (e : RunEvent) :
    (loopStep j e).run.inputsToTranslate = j.run.inputsToTranslate := by
  unfold loopStep
  cases j.status <;> try rfl
  cases e <;> try rfl
  dsimp only
  split
  · rfl
  · split
    · rfl
    · split <;> rfl

theorem loopStep_result_stored (k n : Nat) (prior : List (Option String)) (j : Job)
    (r : Nat) (t : String) (hinv : ResumeInv k n prior j)
    (hst : j.status = Status.iterating) (hflag : j.ctrl.refs.translatorRunningRef = true)
    (hr : 1 ≤ r) (hrn : k + r ≤ n) :
    (loopStep j (result r t)).run.currentOutputs[k + r - 1]? = some (some t) ∧
    (loopStep j (result r t)).ctrl.state.outputs[k + r - 1]? = some (some t) := by
  obtain ⟨hs, hlen, hcur, hpub, hdoc, href⟩ := hinv
  obtain ⟨a, rfl⟩ : ∃ a, r = a + 1 := ⟨r - 1, by omega⟩
  obtain ⟨eng, heng⟩ := Option.isSome_iff_exists.mp href
  have hp : j.run.startIndex + a < j.run.outputWorkingProgress.length := by omega
  have hentry : j.run.outputWorkingProgress[j.run.startIndex + a]? =
      some (j.run.outputWorkingProgress[j.run.startIndex + a]) := List.getElem?_eq_getElem hp
  rw [loopStep_result_ok j a t eng _ hst hflag heng hentry]
  have hidx : k + (a + 1) - 1 = j.run.startIndex + a := by omega
  simp only [hidx]
  exact ⟨arraySet_getElem _ _ _, arraySet_getElem _ _ _⟩

/-- C4. For a resume point `k` and prior outputs with at least `k` entries, and
an engine that numbers its results from 1: `startTranslation(k)` submits to the
engine exactly the lines `inputs[k..n)`; at every point of the run (after any
events, and after the call has finished, whether it completed, was stopped or
failed) the first `k` entries of the outputs sequence and of the published
`outputs` are the first `k` prior outputs; and a result `{index r,
finalTransform t}` with `k + r ≤ n` that the loop reconciles is stored at
position `k + r - 1` of both. -/
theorem startTranslation_resume (c : Ctrl) (k : Nat) (events : List RunEvent)
    (hsrc : SourceConsistent c.state)
    (hprior : k ≤ c.state.outputs.length)
    (hidx : ∀ r t, result r t ∈ events → 1 ≤ r) :
    (startTranslationAt c.state c k events).run.inputsToTranslate = c.state.inputs.drop k ∧
    (startTranslationAt c.state c k events).run.currentOutputs.take k = c.state.outputs.take k ∧
    (startTranslationAt c.state c k events).ctrl.state.outputs.take k = c.state.outputs.take k ∧
    (startTranslation c k events).run.currentOutputs.take k = c.state.outputs.take k ∧
    (startTranslation c k events).ctrl.state.outputs.take k = c.state.outputs.take k ∧
    ∀ r t, 1 ≤ r → k + r ≤ c.state.inputs.length →
      (startTranslationAt c.state c k events).status = Status.iterating →
      (startTranslationAt c.state c k events).ctrl.refs.translatorRunningRef = true →
      (loopStep (startTranslationAt c.state c k events) (result r t)).run.currentOutputs[k + r - 1]? =
        some (some t) ∧
      (loopStep (startTranslationAt c.state c k events) (result r t)).ctrl.state.outputs[k + r - 1]? =
        some (some t) := by
  have hn : c.state.srtInputText.length = c.state.inputs.length := by
    rw [hsrc]; simp
  have hinv : ResumeInv k c.state.inputs.length (c.state.outputs.take k)
      (startTranslationAt c.state c k events) :=
    hn ▸ resumeInv_loop k _ _ events _ (resumeInv_setup c k hprior) hidx
  have hsub : ∀ (es : List RunEvent) (j : Job),
      (startTranslationLoop j es).run.inputsToTranslate = j.run.inputsToTranslate := by
    intro es
    induction es with
    | nil => intro j; rfl
    | cons e es ih => intro j; rw [loop_cons, ih, loopStep_inputsToTranslate]
  obtain ⟨hfo, hfr⟩ := finish_outputs (startTranslationAt c.state c k events)
  refine ⟨?_, hinv.2.2.1, hinv.2.2.2.1, ?_, ?_, ?_⟩
  · rw [startTranslationAt, hsub]; rfl
  · rw [startTranslation, startTranslationFrom, hfr]; exact hinv.2.2.1
  · rw [startTranslation, startTranslationFrom, hfo]; exact hinv.2.2.2.1
  · intro r t hr hrn hst hflag
    exact loopStep_result_stored k _ _ _ r t hinv hst hflag hr hrn

/-- C4 on the five line document: a resume from line 2 with the prior outputs
`A`, `B`, while the engine yields its first result and the user presses Stop. -/
theorem startTranslation_resume_witness :
    (startTranslationAt interruptedCtrl.state interruptedCtrl 2
      [result 1 "C", stop]).run.inputsToTranslate = ["c", "d", "e"] ∧
    (startTranslationAt interruptedCtrl.state interruptedCtrl 2
      [result 1 "C", stop]).ctrl.state.outputs.take 2 = [some "A", some "B"] ∧
    (startTranslation interruptedCtrl 2 [result 1 "C", stop]).ctrl.state.outputs.take 2 =
      [some "A", some "B"] :=
  have h := startTranslation_resume interruptedCtrl 2 [result 1 "C", stop] rfl (by decide)
    (by simp)
  ⟨h.1, h.2.2.1, h.2.2.2.2.1⟩

/-- C5, evaluated on a resume.  The five line document was translated up to
line 2 (`A`, `B`) by a run that was stopped, and is resumed from line 2 with
`handleResume`; once the engine has
finalized the next line as `C`, `outputs` is `A`, `B`, `C`, while the exportable
document carries the source texts `a`, `b` at the positions 0 and 1 and not
`outputs[0]`, `outputs[1]`: the working copy is the parsed source and only the
lines of this run are written into it.  The same holds when the call ends. -/
theorem exportable_document_resume :
    interruptedCtrl.state.outputs = [some "A", some "B"] ∧
    interruptedCtrl.state.resumeIndex = 2 ∧
    texts interruptedCtrl.state.srtOutputText = ["A", "B", "c", "d", "e"] ∧
    (startTranslationAt interruptedCtrl.state interruptedCtrl 2
      [result 1 "C"]).ctrl.state.outputs = [some "A", some "B", some "C"] ∧
    texts (startTranslationAt interruptedCtrl.state interruptedCtrl 2
      [result 1 "C"]).ctrl.state.srtOutputText = ["a", "b", "C", "d", "e"] ∧
    (handleResume interruptedCtrl [result 1 "C", failure "boom"]).ctrl.state.outputs =
      [some "A", some "B", some "C"] ∧
    texts (handleResume interruptedCtrl [result 1 "C", failure "boom"]).ctrl.state.srtOutputText =
      ["a", "b", "C", "d", "e"] := by
  decide

theorem arraySet_getElem_some {α : Type} (xs : List (Option α)) (i m : Nat) (v w : α)
    (h : (arraySet xs (i : Int) v)[m]? = some (some w)) :
    (m = i ∧ w = v) ∨ xs[m]? = some (some w) := by
  rw [arraySet_ofNat] at h
  split at h
  · rw [List.getElem?_set] at h
    split at h
    · next heq =>
      simp only [Option.some.injEq] at h
      exact Or.inl ⟨heq.symm, h.symm⟩
    · right; exact h
  · next hlt =>
    by_cases hm : m < xs.length
    · right
      rwa [List.append_assoc, List.getElem?_append_left hm] at h
    · left
      have hlen : (xs ++ List.replicate (i - xs.length) none).length = i := by
        simp; omega
      by_cases hmi : m < i
      · rw [List.getElem?_append_left (by omega), List.getElem?_append_right (by omega)] at h
        rw [List.getElem?_replicate] at h
        split at h <;> simp at h
      · rw [List.getElem?_append_right (by omega), hlen] at h
        by_cases hz : m - i = 0
        · rw [hz] at h
          exact ⟨by omega, by simpa using h.symm⟩
        · obtain ⟨d, hd⟩ : ∃ d, m - i = d + 1 := ⟨m - i - 1, by omega⟩
          rw [hd] at h
          simp at h

/-- A restart keeps, at every point, only texts that the engine yielded in
this run. -/
theorem fromThisRun_step (events : List RunEvent) (j : Job) (e : RunEvent)
    (hs : j.run.startIndex = 0) (he : e ∈ events)
    (hcur : FromThisRun events j.run.currentOutputs)
    (hpub : FromThisRun events j.ctrl.state.outputs) :
    (loopStep j e).run.startIndex = 0 ∧
    FromThisRun events (loopStep j e).run.currentOutputs ∧
    FromThisRun events (loopStep j e).ctrl.state.outputs := by
  by_cases hst : j.status = Status.iterating
  swap
  · rw [loopStep_of_not_iterating j e hst]; exact ⟨hs, hcur, hpub⟩
  cases e with
  | stop =>
    rw [loopStep_stop j hst]
    refine ⟨hs, hcur, ?_⟩
    unfold stopGeneration; split <;> exact hpub
  | failure m =>
    rw [loopStep_failure j m hst]; exact ⟨hs, hcur, hpub⟩
  | result r t =>
    have hnew : FromThisRun events
        (arraySet j.run.currentOutputs ((0 : Int) + ((r : Int) - 1)) t) := by
      intro i w hi
      by_cases hr : 1 ≤ r
      · rw [show (0 : Int) + ((r : Int) - 1) = ((r - 1 : Nat) : Int) by omega] at hi
        rcases arraySet_getElem_some _ _ _ _ _ hi with ⟨h1, h2⟩ | h
        · rw [h1, h2, show r - 1 + 1 = r by omega]; exact he
        · exact hcur i w h
      · have hneg : (0 : Int) + ((r : Int) - 1) < 0 := by omega
        rw [arraySet, if_pos hneg] at hi
        exact hcur i w hi
    unfold loopStep
    simp only [hst, hs, Nat.cast_zero]
    split
    · exact ⟨hs, hcur, hpub⟩
    · split
      · exact ⟨rfl, hnew, hpub⟩
      · split
        · exact ⟨rfl, hnew, hnew⟩
        · exact ⟨rfl, hnew, hnew⟩

theorem fromThisRun_loop (events : List RunEvent) (es : List RunEvent) :
    ∀ j : Job, (∀ e ∈ es, e ∈ events) → j.run.startIndex = 0 →
      FromThisRun events j.run.currentOutputs →
      FromThisRun events j.ctrl.state.outputs →
      FromThisRun events (startTranslationLoop j es).run.currentOutputs ∧
      FromThisRun events (startTranslationLoop j es).ctrl.state.outputs := by
  induction es with
  | nil => intro j _ _ h1 h2; exact ⟨h1, h2⟩
  | cons e es ih =>
    intro j hsub hs h1 h2
    obtain ⟨a, b, d⟩ := fromThisRun_step events j e hs (hsub e (List.mem_cons_self _ _)) h1 h2
    rw [loop_cons]
    exact ih _ (fun x hx => hsub x (List.mem_cons_of_mem _ hx)) a b d

theorem noResult_loop (es : List RunEvent) :
    ∀ j : Job, NoResult es →
      (startTranslationLoop j es).run.currentOutputs = j.run.currentOutputs ∧
      (startTranslationLoop j es).ctrl.state.outputs = j.ctrl.state.outputs := by
  induction es with
  | nil => intro j _; exact ⟨rfl, rfl⟩
  | cons e es ih =>
    intro j hno
    have hes : NoResult es := fun r t hm => hno r t (List.mem_cons_of_mem _ hm)
    obtain ⟨h1, h2⟩ := ih (loopStep j e) hes
    rw [loop_cons, h1, h2]
    by_cases hst : j.status = Status.iterating
    swap
    · rw [loopStep_of_not_iterating j e hst]; exact ⟨rfl, rfl⟩
    cases e with
    | stop =>
      rw [loopStep_stop j hst]
      refine ⟨rfl, ?_⟩
      unfold stopGeneration; split <;> rfl
    | failure m => rw [loopStep_failure j m hst]; exact ⟨rfl, rfl⟩
    | result r t => exact absurd (List.mem_cons_self _ _) (hno r t)

/-- C6. A restart (`handleStartOver`, which calls `startTranslation(0)`) runs
with an outputs sequence that starts empty, whatever the prior outputs and
`resumeIndex` were: at the start of the run the outputs sequence and the
published `outputs` are empty; at every point of the run and when the call has
finished, every text in them was yielded by the engine in this run, at the
position of its index; and when the run finalizes no line at all they are
empty. -/
theorem handleStartOver_discards (c : Ctrl) (events : List RunEvent) :
    (startTranslationAt c.state (clearProgress c) 0 []).run.currentOutputs = [] ∧
    (startTranslationAt c.state (clearProgress c) 0 []).ctrl.state.outputs = [] ∧
    FromThisRun events (startTranslationAt c.state (clearProgress c) 0 events).run.currentOutputs ∧
    FromThisRun events (startTranslationAt c.state (clearProgress c) 0 events).ctrl.state.outputs ∧
    FromThisRun events (handleStartOver c events).run.currentOutputs ∧
    FromThisRun events (handleStartOver c events).ctrl.state.outputs ∧
    (NoResult events →
      (startTranslationAt c.state (clearProgress c) 0 events).ctrl.state.outputs = [] ∧
      (handleStartOver c events).run.currentOutputs = [] ∧
      (handleStartOver c events).ctrl.state.outputs = []) := by
  have hempty : FromThisRun events [] := by intro i t h; simp at h
  obtain ⟨h1, h2⟩ := fromThisRun_loop events events
    (startTranslationSetup c.state (clearProgress c) 0) (fun _ h => h) rfl hempty hempty
  obtain ⟨hfo, hfr⟩ := finish_outputs (startTranslationAt c.state (clearProgress c) 0 events)
  refine ⟨rfl, rfl, h1, h2, ?_, ?_, ?_⟩
  · rw [handleStartOver, startTranslationFrom, hfr]; exact h1
  · rw [handleStartOver, startTranslationFrom, hfo]; exact h2
  · intro hno
    obtain ⟨h3, h4⟩ := noResult_loop events (startTranslationSetup c.state (clearProgress c) 0) hno
    refine ⟨?_, ?_, ?_⟩
    · rw [startTranslationAt, h4]; rfl
    · rw [handleStartOver, startTranslationFrom, hfr, startTranslationAt, h3]; rfl
    · rw [handleStartOver, startTranslationFrom, hfo, startTranslationAt, h4]; rfl

/-- C6 on a controller that holds the outputs `A`, `B` and `resumeIndex = 2`:
a restart in which the user presses Stop before any line is finalized. -/
theorem handleStartOver_discards_witness :
    (startTranslationAt interruptedCtrl.state (clearProgress interruptedCtrl) 0 [stop]).ctrl.state.outputs =
      [] ∧
    (handleStartOver interruptedCtrl [stop]).run.currentOutputs = [] ∧
    (handleStartOver interruptedCtrl [stop]).ctrl.state.outputs = [] :=
  (handleStartOver_discards interruptedCtrl [stop]).2.2.2.2.2.2 (by intro r t; simp)

/-- C7 as stated fails: `runningCtrl` has a job Running with the engine
instance 0, and an invocation of `startTranslation(0)` there replaces that
instance by the new instance 1 and starts a loop that reconciles the next
result. -/
theorem startTranslation_while_running_counterexample :
    runningCtrl.refs.translatorRunningRef = true ∧
    runningCtrl.refs.translatorRef = some { id := 0, structured := true, useModerator := true } ∧
    (startTranslationSetup runningCtrl.state runningCtrl 0).ctrl.refs.translatorRef =
      some { id := 1, structured := true, useModerator := true } ∧
    ¬ (startTranslationSetup runningCtrl.state runningCtrl 0).ctrl.refs.translatorRef =
      runningCtrl.refs.translatorRef ∧
    (startTranslationSetup runningCtrl.state runningCtrl 0).status = Status.iterating ∧
    (startTranslationAt runningCtrl.state runningCtrl 0 [result 1 "X"]).ctrl.state.outputs =
      [some "X"] := by
  decide

/-- C7, as amended.  `startTranslation` has no guard of its own: in every
controller state in which a job is Running with the engine instance `eng`, an
invocation builds a new engine instance, stores it in `translatorRef` in place
of `eng`, and waits for results in a loop of its own.  What keeps a second
invocation from happening is the presentation layer: while
`translatorRunningState` is true the start controls are disabled and not
rendered. -/
theorem startTranslation_while_running (c : Ctrl) (startIndex : Nat) (eng : Translator)
    (hstate : c.state.translatorRunningState = true)
    (href : c.refs.translatorRef = some eng)
    (hfresh : eng.id < c.allocated) :
    (startTranslationSetup c.state c startIndex).status = Status.iterating ∧
    (startTranslationSetup c.state c startIndex).ctrl.refs.translatorRef =
      some { id := c.allocated, structured := c.state.useStructuredMode,
             useModerator := c.state.useModerator } ∧
    (startTranslationSetup c.state c startIndex).ctrl.refs.translatorRef ≠ c.refs.translatorRef ∧
    startDisabled c.state = true ∧ startRendered c.state = false := by
  refine ⟨rfl, rfl, ?_, ?_, ?_⟩
  · rw [href]
    simp only [startTranslationSetup, ne_eq, Option.some.injEq]
    intro h
    rw [← h] at hfresh
    exact Nat.lt_irrefl _ hfresh
  · simp [startDisabled, hstate]
  · simp [startRendered, hstate]

/-- C7, as amended, at `runningCtrl`. -/
theorem startTranslation_while_running_witness :
    (startTranslationSetup runningCtrl.state runningCtrl 3).status = Status.iterating ∧
    (startTranslationSetup runningCtrl.state runningCtrl 3).ctrl.refs.translatorRef =
      some { id := runningCtrl.allocated, structured := runningCtrl.state.useStructuredMode,
             useModerator := runningCtrl.state.useModerator } ∧
    (startTranslationSetup runningCtrl.state runningCtrl 3).ctrl.refs.translatorRef ≠
      runningCtrl.refs.translatorRef ∧
    startDisabled runningCtrl.state = true ∧ startRendered runningCtrl.state = false :=
  startTranslation_while_running runningCtrl 3
    { id := 0, structured := true, useModerator := true } (by decide) (by decide) (by decide)

/-- C8. On every exit path of `startTranslation` (the engine's sequence ends,
the loop observes a stop, or an error is thrown while iterating), for every
start index and whatever the closure sees, the call returns with
`translatorRunningState` and `translatorRunningRef` false and `translatorRef`
null. -/
theorem startTranslation_releases (seen : State) (c : Ctrl) (startIndex : Nat)
    (events : List RunEvent) :
    (startTranslationFrom seen c startIndex events).status = Status.returned ∧
    (startTranslationFrom seen c startIndex events).ctrl.state.translatorRunningState = false ∧
    (startTranslationFrom seen c startIndex events).ctrl.refs.translatorRunningRef = false ∧
    (startTranslationFrom seen c startIndex events).ctrl.refs.translatorRef = none ∧
    (startTranslation c startIndex events).ctrl.state.translatorRunningState = false ∧
    (startTranslation c startIndex events).ctrl.refs.translatorRunningRef = false ∧
    (startTranslation c startIndex events).ctrl.refs.translatorRef = none :=
  ⟨rfl, rfl, rfl, rfl, rfl, rfl, rfl⟩

/-- C9. The endpoint override is edge-triggered.  For every configuration and
every new endpoint value, `setBaseUrlWithModerator` stores the value, and it
leaves `useModerator` and `useStructuredMode` false when the current endpoint
is empty and the new one is not, and as they were in every other case; so
flags that were enabled again after an override stay enabled when the endpoint
is set to another non-empty value. -/
theorem setBaseUrlWithModerator_edge (s : State) (value : Option String) :
    (setBaseUrlWithModerator s value).baseUrlValue = value ∧
    (setBaseUrlWithModerator s value).useModerator =
      (if truthy s.baseUrlValue = false ∧ truthy value = true then false else s.useModerator) ∧
    (setBaseUrlWithModerator s value).useStructuredMode =
      (if truthy s.baseUrlValue = false ∧ truthy value = true then false
       else s.useStructuredMode) ∧
    (setBaseUrlWithModerator
      { setBaseUrlWithModerator s (some "https://a.example") with
        useModerator := true, useStructuredMode := true }
      (some "https://b.example")).useModerator = true ∧
    (setBaseUrlWithModerator
      { setBaseUrlWithModerator s (some "https://a.example") with
        useModerator := true, useStructuredMode := true }
      (some "https://b.example")).useStructuredMode = true := by
  refine ⟨?_, ?_, ?_, ?_, ?_⟩
  · simp [setBaseUrlWithModerator]
  · unfold setBaseUrlWithModerator
    cases h1 : truthy s.baseUrlValue <;> cases h2 : truthy value <;>
      cases h3 : s.useModerator <;> cases h4 : s.useStructuredMode <;> simp [h3, h4]
  · unfold setBaseUrlWithModerator
    cases h1 : truthy s.baseUrlValue <;> cases h2 : truthy value <;>
      cases h3 : s.useModerator <;> cases h4 : s.useStructuredMode <;> simp [h3, h4]
  · have : truthy (some "https://a.example") = true := by decide
    simp [setBaseUrlWithModerator, this]
  · have : truthy (some "https://a.example") = true := by decide
    simp [setBaseUrlWithModerator, this]

/-- C10, evaluated.  The test of `onStreamChunk` reads the `streamOutput` that
the run saw when it started, not the buffer at the moment the chunk arrives.
In a run started with an empty buffer, the chunk `Hello` makes the buffer
`Hello` and a following newline chunk is dropped although the buffer is not
empty.  In a run started while the buffer showed `par`, a newline chunk that
arrives on the emptied buffer is appended. -/
theorem onStreamChunk_reads_seen_buffer :
    (onStreamChunk (startTranslationSetup sampleCtrl.state sampleCtrl 0).run
      (startTranslationSetup sampleCtrl.state sampleCtrl 0).ctrl "Hello").state.streamOutput =
      "Hello" ∧
    (onStreamChunk (startTranslationSetup sampleCtrl.state sampleCtrl 0).run
      (onStreamChunk (startTranslationSetup sampleCtrl.state sampleCtrl 0).run
        (startTranslationSetup sampleCtrl.state sampleCtrl 0).ctrl "Hello") "\n").state.streamOutput =
      "Hello" ∧
    (startTranslationSetup staleStreamCtrl.state staleStreamCtrl 0).ctrl.state.streamOutput = "" ∧
    (onStreamChunk (startTranslationSetup staleStreamCtrl.state staleStreamCtrl 0).run
      (startTranslationSetup staleStreamCtrl.state staleStreamCtrl 0).ctrl "\n").state.streamOutput =
      "\n" := by
  decide

/-- C11, evaluated.  `onClearLine` computes the new buffer from the
`streamOutput` that the run saw when it started, so the result does not depend
on the buffer at the moment of the clear signal.  In a run started with an
empty buffer, the chunk `one\ntwo` makes the buffer `one\ntwo` and the clear
signal then empties it, although the first segment `one` should be kept.  In a
run started while the buffer showed `old\npar`, the buffer is emptied at the
start, the chunk `new` makes it `new`, and the clear signal makes it `old\n`:
the single segment is not just removed, text of the earlier run comes back. -/
theorem onClearLine_reads_seen_buffer :
    (∀ (run : Run) (c d : Ctrl),
      (onClearLine run c).state.streamOutput = (onClearLine run d).state.streamOutput) ∧
    (onStreamChunk (startTranslationSetup sampleCtrl.state sampleCtrl 0).run
      (startTranslationSetup sampleCtrl.state sampleCtrl 0).ctrl "one\ntwo").state.streamOutput =
      "one\ntwo" ∧
    (onClearLine (startTranslationSetup sampleCtrl.state sampleCtrl 0).run
      (onStreamChunk (startTranslationSetup sampleCtrl.state sampleCtrl 0).run
        (startTranslationSetup sampleCtrl.state sampleCtrl 0).ctrl "one\ntwo")).state.streamOutput =
      "" ∧
    (onStreamChunk (startTranslationSetup staleLinesCtrl.state staleLinesCtrl 0).run
      (startTranslationSetup staleLinesCtrl.state staleLinesCtrl 0).ctrl "new").state.streamOutput =
      "new" ∧
    (onClearLine (startTranslationSetup staleLinesCtrl.state staleLinesCtrl 0).run
      (onStreamChunk (startTranslationSetup staleLinesCtrl.state staleLinesCtrl 0).run
        (startTranslationSetup staleLinesCtrl.state staleLinesCtrl 0).ctrl "new")).state.streamOutput =
      "old\n" := by
  refine ⟨fun _ _ _ => rfl, ?_, ?_, ?_, ?_⟩ <;> decide

theorem arraySet_length_bound {α : Type} (xs : List (Option α)) (i n : Nat) (v : α)
    (hxs : xs.length ≤ n) (hi : i < n) : (arraySet xs (i : Int) v).length ≤ n := by
  rw [arraySet_ofNat]
  split
  · simpa using hxs
  · simp; omega

theorem rangeInv_setup (c : Ctrl) (k : Nat) (hsrc : SourceConsistent c.state)
    (hk : k ≤ c.state.inputs.length) :
    RangeInv k c.state.inputs.length (startTranslationSetup c.state c k) := by
  have hn : c.state.srtInputText.length = c.state.inputs.length := by
    rw [hsrc]; simp
  refine ⟨rfl, ?_, hn, rfl, rfl⟩
  simp only [startTranslationSetup, seed_eq_take, List.length_take]
  omega

theorem rangeInv_step (k n : Nat) (j : Job) (e : RunEvent) (hinv : RangeInv k n j)
    (he : ∀ r t, e = result r t → 1 ≤ r ∧ k + r ≤ n) :
    RangeInv k n (loopStep j e) := by
  obtain ⟨hs, hlen, hdoc, hseen, href⟩ := hinv
  by_cases hst : j.status = Status.iterating
  swap
  · rw [loopStep_of_not_iterating j e hst]; exact ⟨hs, hlen, hdoc, hseen, href⟩
  cases e with
  | stop =>
    rw [loopStep_stop j hst]
    refine ⟨hs, hlen, hdoc, hseen, ?_⟩
    unfold stopGeneration; split <;> simpa using href
  | failure m =>
    rw [loopStep_failure j m hst]; exact ⟨hs, hlen, hdoc, hseen, href⟩
  | result r t =>
    obtain ⟨hr, hrn⟩ := he r t rfl
    have hnew : (arraySet j.run.currentOutputs ((k + (r - 1) : Nat) : Int) t).length ≤ n :=
      arraySet_length_bound _ _ _ _ hlen (by omega)
    unfold loopStep
    simp only [hst, hs, overallIndex_pos k r hr, arrayGet_ofNat, Int.toNat_ofNat]
    split
    · exact ⟨hs, hlen, hdoc, hseen, href⟩
    · split
      · exact ⟨rfl, hnew, hdoc, hseen, href⟩
      · split
        · exact ⟨rfl, hnew, by simpa using hdoc, hseen, href⟩
        · exact ⟨rfl, hnew, by simpa using hdoc, hseen, href⟩

theorem rangeInv_loop (k n : Nat) (events : List RunEvent) :
    ∀ j : Job, RangeInv k n j → (∀ r t, result r t ∈ events → 1 ≤ r ∧ k + r ≤ n) →
      RangeInv k n (startTranslationLoop j events) := by
  induction events with
  | nil => intro j h _; exact h
  | cons e es ih =>
    intro j h hidx
    rw [loop_cons]
    refine ih _ (rangeInv_step k n j e h ?_) ?_
    · intro r t he; exact hidx r t (he ▸ List.mem_cons_self _ _)
    · intro r t hm; exact hidx r t (List.mem_cons_of_mem _ hm)

/-- One arrival never shortens the outputs sequence, and it leaves the
published `outputs` as they were or makes them the outputs sequence. -/
theorem loopStep_lengths (j : Job) (e : RunEvent) :
    j.run.currentOutputs.length ≤ (loopStep j e).run.currentOutputs.length ∧
    ((loopStep j e).ctrl.state.outputs = j.ctrl.state.outputs ∨
      (loopStep j e).ctrl.state.outputs = (loopStep j e).run.currentOutputs) := by
  by_cases hst : j.status = Status.iterating
  swap
  · rw [loopStep_of_not_iterating j e hst]; exact ⟨le_rfl, Or.inl rfl⟩
  cases e with
  | stop =>
    rw [loopStep_stop j hst]
    refine ⟨le_rfl, Or.inl ?_⟩
    unfold stopGeneration; split <;> rfl
  | failure m => rw [loopStep_failure j m hst]; exact ⟨le_rfl, Or.inl rfl⟩
  | result r t =>
    have hle := arraySet_length_le j.run.currentOutputs
      ((j.run.startIndex : Int) + ((r : Int) - 1)) t
    unfold loopStep
    simp only [hst]
    split
    · exact ⟨le_rfl, Or.inl rfl⟩
    · split
      · exact ⟨hle, Or.inl rfl⟩
      · split
        · exact ⟨hle, Or.inr rfl⟩
        · exact ⟨hle, Or.inr rfl⟩

theorem loop_lengths (fs : List RunEvent) :
    ∀ j : Job, j.run.currentOutputs.length ≤ (startTranslationLoop j fs).run.currentOutputs.length ∧
      (j.ctrl.state.outputs.length ≤ j.run.currentOutputs.length →
        j.ctrl.state.outputs.length ≤ (startTranslationLoop j fs).ctrl.state.outputs.length ∧
        (startTranslationLoop j fs).ctrl.state.outputs.length ≤
          (startTranslationLoop j fs).run.currentOutputs.length) := by
  induction fs with
  | nil => intro j; exact ⟨le_rfl, fun h => ⟨le_rfl, h⟩⟩
  | cons e es ih =>
    intro j
    obtain ⟨h1, h2⟩ := loopStep_lengths j e
    obtain ⟨h3, h4⟩ := ih (loopStep j e)
    rw [loop_cons]
    refine ⟨le_trans h1 h3, fun hpub => ?_⟩
    have hstep : j.ctrl.state.outputs.length ≤ (loopStep j e).ctrl.state.outputs.length ∧
        (loopStep j e).ctrl.state.outputs.length ≤ (loopStep j e).run.currentOutputs.length := by
      rcases h2 with h | h
      · rw [h]; exact ⟨le_rfl, le_trans hpub h1⟩
      · rw [h]; exact ⟨le_trans hpub h1, le_rfl⟩
    obtain ⟨h5, h6⟩ := h4 hstep.2
    exact ⟨le_trans hstep.1 h5, h6⟩
theorem finish_resumeIndex_le (j : Job) (n : Nat) (hlen : j.run.currentOutputs.length ≤ n) :
    (startTranslationFinish j).ctrl.state.resumeIndex ≤ n ∧
    ((startTranslationFinish j).ctrl.state.resumeIndex = 0 ∨
      (startTranslationFinish j).ctrl.state.resumeIndex = j.run.currentOutputs.length) := by
  unfold startTranslationFinish
  cases j.status with
  | thrown m => exact ⟨hlen, Or.inr rfl⟩
  | iterating =>
    dsimp only
    split
    · exact ⟨Nat.zero_le _, Or.inl rfl⟩
    · exact ⟨hlen, Or.inr rfl⟩
  | exited =>
    dsimp only
    split
    · exact ⟨Nat.zero_le _, Or.inl rfl⟩
    · exact ⟨hlen, Or.inr rfl⟩
  | returned =>
    dsimp only
    split
    · exact ⟨Nat.zero_le _, Or.inl rfl⟩
    · exact ⟨hlen, Or.inr rfl⟩

/-- C12. For a source of `n` lines, a start index `fromIndex ≤ n` and any
sequence of results, stops and thrown errors in which every result index lies
in `1 .. n - fromIndex`: the `resumeIndex` that `startTranslation(fromIndex)`
records is between `0` and `n`, being `0` or the length of the outputs
sequence, which is at most `n`.  Within the run the length of the outputs
sequence never decreases from one point to a later one; a finalized line
publishes the outputs sequence as `outputs`; and from a point at which the
published `outputs` are not longer than the outputs sequence, as after every
finalized line, their length never decreases either. -/
theorem startTranslation_progress_in_range (c : Ctrl) (fromIndex : Nat)
    (events : List RunEvent)
    (hsrc : SourceConsistent c.state)
    (hfrom : fromIndex ≤ c.state.inputs.length)
    (hidx : ∀ r t, result r t ∈ events → 1 ≤ r ∧ fromIndex + r ≤ c.state.inputs.length) :
    0 ≤ (startTranslation c fromIndex events).ctrl.state.resumeIndex ∧
    (startTranslation c fromIndex events).ctrl.state.resumeIndex ≤ c.state.inputs.length ∧
    ((startTranslation c fromIndex events).ctrl.state.resumeIndex = 0 ∨
      (startTranslation c fromIndex events).ctrl.state.resumeIndex =
        (startTranslation c fromIndex events).run.currentOutputs.length) ∧
    (startTranslation c fromIndex events).run.currentOutputs.length ≤ c.state.inputs.length ∧
    (∀ es fs : List RunEvent,
      (startTranslationAt c.state c fromIndex es).run.currentOutputs.length ≤
        (startTranslationAt c.state c fromIndex (es ++ fs)).run.currentOutputs.length) ∧
    (∀ r t, 1 ≤ r → fromIndex + r ≤ c.state.inputs.length →
      (startTranslationAt c.state c fromIndex events).status = Status.iterating →
      (startTranslationAt c.state c fromIndex events).ctrl.refs.translatorRunningRef = true →
      (loopStep (startTranslationAt c.state c fromIndex events) (result r t)).ctrl.state.outputs =
        (loopStep (startTranslationAt c.state c fromIndex events) (result r t)).run.currentOutputs) ∧
    (∀ es fs : List RunEvent,
      (startTranslationAt c.state c fromIndex es).ctrl.state.outputs.length ≤
        (startTranslationAt c.state c fromIndex es).run.currentOutputs.length →
      (startTranslationAt c.state c fromIndex es).ctrl.state.outputs.length ≤
        (startTranslationAt c.state c fromIndex (es ++ fs)).ctrl.state.outputs.length) := by
  have hinv : RangeInv fromIndex c.state.inputs.length
      (startTranslationAt c.state c fromIndex events) :=
    rangeInv_loop _ _ events _ (rangeInv_setup c fromIndex hsrc hfrom) hidx
  obtain ⟨hs, hlen, hdoc, hseen, href⟩ := hinv
  obtain ⟨hle, hor⟩ := finish_resumeIndex_le _ _ hlen
  obtain ⟨_, hfr⟩ := finish_outputs (startTranslationAt c.state c fromIndex events)
  refine ⟨Nat.zero_le _, hle, ?_, ?_, ?_, ?_, ?_⟩
  · simp only [startTranslation, startTranslationFrom, hfr]; exact hor
  · simp only [startTranslation, startTranslationFrom, hfr]; exact hlen
  · intro es fs
    rw [startTranslationAt, startTranslationAt, loop_append]
    exact (loop_lengths fs _).1
  · intro r t hr hrn hst hflag
    obtain ⟨a, rfl⟩ : ∃ a, r = a + 1 := ⟨r - 1, by omega⟩
    obtain ⟨eng, heng⟩ := Option.isSome_iff_exists.mp href
    have hp : (startTranslationAt c.state c fromIndex events).run.startIndex + a <
        (startTranslationAt c.state c fromIndex events).run.outputWorkingProgress.length := by
      omega
    rw [loopStep_result_ok _ a t eng _ hst hflag heng (List.getElem?_eq_getElem hp)]
  · intro es fs hpub
    have h := ((loop_lengths fs (startTranslationAt c.state c fromIndex es)).2 hpub).1
    rwa [startTranslationAt, ← loop_append] at h

/-- C12 on the five line document: a run from line 0 in which the engine
finalizes line 2, then line 1, and then throws. -/
theorem startTranslation_progress_in_range_witness :
    (startTranslation sampleCtrl 0
      [result 2 "B", result 1 "A", failure "boom"]).ctrl.state.resumeIndex ≤ 5 ∧
    (startTranslation sampleCtrl 0
      [result 2 "B", result 1 "A", failure "boom"]).run.currentOutputs.length ≤ 5 :=
  have h := startTranslation_progress_in_range sampleCtrl 0
    [result 2 "B", result 1 "A", failure "boom"] rfl (by decide)
    (by
      intro r t hm
      simp only [List.mem_cons, RunEvent.result.injEq, List.mem_singleton, reduceCtorEq,
        List.not_mem_nil, or_false] at hm
      rcases hm with ⟨h1, _⟩ | ⟨h1, _⟩ <;> subst h1 <;> decide)
  ⟨h.2.1, h.2.2.2.1⟩

end TranslatorApplication
